import Mathlib

set_option maxHeartbeats 2000000
set_option maxRecDepth 8000

/-!
Shallow embedding of `sudoku-solver.py` (a 9x9 Sudoku backtracking solver).

The Python source operates on a 9x9 numpy array that is converted to a
list of lists of Python ints (`sudoku.tolist()`); the solver then mutates
that list in place.  We model a board as a `List (List Int)` (cell values
are Python ints; the sentinel output uses -1, hence `Int`), positions as
natural-number indices, and the in-place mutation of the solver by
explicit state passing: the solver returns, besides its result, the final
contents of the board and of the empty-cell queue, exactly as a caller of
the mutating Python function would observe them.

The recursion of the Python `solver` is modelled with an explicit `fuel`
parameter counting the allowed depth of "expand a cell" steps; `none`
means the fuel was exhausted.  We prove below that fuel equal to the
length of the empty-cell queue always suffices, which is the formal
content of the bound "recursion depth is at most the number of empty
cells".

`generate_candidates` ends with `list(set(list(range(1, 10))) - final_set)`.
The order of that list is the iteration order of a CPython `set` object,
which for small ints is *not* always ascending.  Since one of the claims
is precisely about this order, the embedding models the CPython set of
small non-negative ints faithfully (see `PySet` below): open addressing
in a table of 8 slots initially, `hash(n) = n`, probe sequence
`i -> (5*i + 1 + perturb) mod size` with `perturb` starting at the hash
and shifted right by 5 bits each round, up to 9 extra linear probes per
round when they fit under the mask, and a resize to the smallest power of
two greater than `4 * used` as soon as `fill * 5 >= mask * 3`.  Iterating
a set lists the occupied slots in table order.
-/

namespace Sudoku

/-- A board: a list of rows, each a list of cell values (Python ints). -/
abbrev Board := List (List Int)

/-- Reading `sudoku[r][c]`; out-of-range reads (never reached on 9x9
boards with indices below 9) default to 0. -/
def get (b : Board) (r c : Nat) : Int := (b.getD r []).getD c 0

/-- The in-place write `sudoku[r][c] = v`, as a functional update. -/
def setCell (b : Board) (r c : Nat) (v : Int) : Board :=
  b.set r ((b.getD r []).set c v)

/-- Well-formed 9x9 board shape. -/
def Wf (b : Board) : Prop := b.length = 9 ∧ ∀ row ∈ b, row.length = 9

instance (b : Board) : Decidable (Wf b) := by unfold Wf; infer_instance

/-! ### CPython small-int set model -/

/-- CPython `hash` of a small non-negative int is the int itself; only
values 1..9 are ever inserted here. -/
def pyHash (v : Int) : Nat := v.toNat

/-- One slot is usable for `v` if it is free or already holds `v`. -/
def slotOk (t : List (Option Int)) (v : Int) (s : Nat) : Bool :=
  match t.getD s none with
  | none => true
  | some w => w == v

/-- Scan slots `i, i+1, ..., i+k` (CPython's LINEAR_PROBES loop), returning
the first usable slot. -/
def scanFrom (t : List (Option Int)) (v : Int) : Nat → Nat → Option Nat
  | i, 0 => if slotOk t v i then some i else none
  | i, k + 1 => if slotOk t v i then some i else scanFrom t v (i + 1) k

/-- CPython `set_add_entry` probe loop: at index `i`, scan up to 9 extra
linear slots when `i + 9 ≤ mask`, then recompute
`perturb >>= 5; i = (i*5 + 1 + perturb) & mask`.  The fuel (table size)
always suffices for the values inserted here. -/
def probeLoop (t : List (Option Int)) (v : Int) : Nat → Nat → Nat → Option Nat
  | 0, _, _ => none
  | fuel + 1, i, perturb =>
    let mask := t.length - 1
    let probes := if i + 9 ≤ mask then 9 else 0
    match scanFrom t v i probes with
    | some s => some s
    | none =>
      let p := perturb / 32
      probeLoop t v fuel ((i * 5 + 1 + p) % t.length) p

/-- Insert `v` into a table; returns the table and whether a new entry was
added (false when `v` was already present or no slot was found). -/
def tableInsert (t : List (Option Int)) (v : Int) : List (Option Int) × Bool :=
  match probeLoop t v t.length (pyHash v % t.length) (pyHash v) with
  | none => (t, false)
  | some s =>
    match t.getD s none with
    | some _ => (t, false)
    | none => (t.set s (some v), true)

/-- A CPython set object: slot table plus number of used entries (`fill`
equals `used`; the sets built here never delete). -/
structure PySet where
  table : List (Option Int)
  used : Nat

/-- CPython `set_table_resize` size computation: start at `PySet_MINSIZE = 8`
and double while `newsize ≤ minused`. -/
def growSize : Nat → Nat → Nat → Nat
  | 0, cur, _ => cur
  | fuel + 1, cur, minused => if cur ≤ minused then growSize fuel (cur * 2) minused else cur

/-- CPython `set_table_resize`: rebuild into a fresh table of the computed
size, reinserting entries in old-table slot order. -/
def resizeTable (s : PySet) : PySet :=
  let minused := s.used * 4
  let newsize := growSize 64 8 minused
  let t' := s.table.foldl
    (fun acc slot =>
      match slot with
      | none => acc
      | some v => (tableInsert acc v).1)
    (List.replicate newsize none)
  { table := t', used := s.used }

/-- CPython `set_add_entry` including the resize check
`fill * 5 ≥ mask * 3` performed after a successful insertion. -/
def pyAdd (s : PySet) (v : Int) : PySet :=
  let ins := tableInsert s.table v
  if ins.2 then
    let s' : PySet := { table := ins.1, used := s.used + 1 }
    if s'.used * 5 ≥ (ins.1.length - 1) * 3 then resizeTable s' else s'
  else { table := ins.1, used := s.used }

/-- The empty set: 8 free slots. -/
def pyEmptySet : PySet := { table := List.replicate 8 none, used := 0 }

/-- Building a set from a list, inserting left to right (CPython
`set_update_internal` over an iterator). -/
def pySetOfList (l : List Int) : PySet := l.foldl pyAdd pyEmptySet

/-- Iterating a set: the occupied slots in table order (CPython `set_next`). -/
def pySetList (s : PySet) : List Int := s.table.filterMap id

/-! ### The translated source functions -/

/-- The list comprehension
`[sudoku[idx][i] for i in range(0, 9) if sudoku[idx][i] > 0]`,
used both by `check_invalid` and by `generate_candidates`. -/
def rowVals (b : Board) (idx : Nat) : List Int :=
  ((List.range 9).filter (fun i => decide (0 < get b idx i))).map (fun i => get b idx i)

/-- The list comprehension
`[sudoku[i][idx] for i in range(0, 9) if sudoku[i][idx] > 0]`. -/
def colVals (b : Board) (idx : Nat) : List Int :=
  ((List.range 9).filter (fun i => decide (0 < get b i idx))).map (fun i => get b i idx)

/-- The `box_vals` loop of `check_invalid`: the positive values among the
nine cells of the box with corner `(row_idx * 3, col_idx * 3)`. -/
def boxValsCI (b : Board) (row_idx col_idx : Nat) : List Int :=
  (List.range 3).flatMap (fun i =>
    ((List.range 3).filter (fun j => decide (0 < get b (row_idx * 3 + i) (col_idx * 3 + j)))).map
      (fun j => get b (row_idx * 3 + i) (col_idx * 3 + j)))

/-- Translation of `check_invalid`: any row or column, then any box, whose
positive values contain a duplicate (Python compares `len(vals)` with
`len(set(vals))`; the size of `set(vals)` is the number of distinct
values, i.e. `vals.dedup.length`). -/
def check_invalid (b : Board) : Bool :=
  ((List.range 9).any (fun idx =>
    let row_vals := rowVals b idx
    let col_vals := colVals b idx
    decide (col_vals.dedup.length ≠ col_vals.length)
      || decide (row_vals.dedup.length ≠ row_vals.length)))
  ||
  ((List.range 3).any (fun row_idx =>
    (List.range 3).any (fun col_idx =>
      let box_vals := boxValsCI b row_idx col_idx
      decide (box_vals.dedup.length ≠ box_vals.length))))

/-- Python `list(range(1, 10))`. -/
def nineList : List Int := [1, 2, 3, 4, 5, 6, 7, 8, 9]

/-- The `box_vals` loop of `generate_candidates`: positive values among
the nine cells of the box containing `(row, col)`, addressed in the
source as `sudoku[row + i - mod_row][col + j - mod_col]`. -/
def boxValsGC (b : Board) (row col : Nat) : List Int :=
  let mod_row := row % 3
  let mod_col := col % 3
  (List.range 3).flatMap (fun i =>
    ((List.range 3).filter
        (fun j => decide (0 < get b (row + i - mod_row) (col + j - mod_col)))).map
      (fun j => get b (row + i - mod_row) (col + j - mod_col)))

/-- Translation of `generate_candidates`.  The result type is `Option`
because the caller in `solver` tests the returned value against `None`;
the single return path of the Python function always produces a list.
`set().union(box_vals, row_vals, col_vals)` is used only for the
membership test of the difference, so it is modelled by a membership
predicate; the difference `set(list(range(1, 10))) - final_set` iterates
the left set in its table order, keeps the values not in `final_set`, and
inserts them into a fresh set, whose iteration order is the order of the
resulting list. -/
def generate_candidates (b : Board) (row col : Nat) : Option (List Int) :=
  let row_vals := rowVals b row
  let col_vals := colVals b col
  let box_vals := boxValsGC b row col
  let finalMem : Int → Bool := fun v =>
    box_vals.contains v || row_vals.contains v || col_vals.contains v
  let leftList := pySetList (pySetOfList nineList)
  some (pySetList (pySetOfList (leftList.filter (fun v => !finalMem v))))

/-- The list of candidate values produced by `generate_candidates`. -/
def candVals (b : Board) (row col : Nat) : List Int :=
  (generate_candidates b row col).getD []

/-- The local `zeroes` list built by `find_spaces`: coordinates of the
zero cells in row-major scan order. -/
def zeroesOf (b : Board) : List (Nat × Nat) :=
  (List.range 9).flatMap (fun row_pos =>
    ((List.range 9).filter (fun col_pos => decide (get b row_pos col_pos = 0))).map
      (fun col_pos => (row_pos, col_pos)))

/-- Translation of `find_spaces`: the coordinates of the zero cells in
row-major scan order, or `None` when the board has no zero cell. -/
def find_spaces (b : Board) : Option (List (Nat × Nat)) :=
  let zeroes := zeroesOf b
  if zeroes.isEmpty then none else some zeroes

/-- Result of one (recursive) call of the Python `solver`, as observed by
its caller: the returned value (`none` models Python `None`), together
with the contents of the mutated board and of the mutated empty-cell
queue at the moment the call returns. -/
abbrev SolverRes := Option Board × Board × List (Nat × Nat)

mutual

/-- Translation of `solver`, with explicit fuel bounding the depth of
cell expansions (an overall `none` means the fuel ran out; this is proved
unreachable below for fuel equal to the queue length).  An empty queue
returns the board; otherwise the head cell `(x, y)` is popped and its
candidates are tried in order.  The `none` branch of the candidate match
embeds the dead Python branch `if candidate_vals == None`, in which the
caller's queue has lost `(x, y)` (the Python rebinding `zeroes = []` does
not affect the caller's list). -/
def solverF : Nat → Board → List (Nat × Nat) → Option SolverRes
  | _, b, [] => some (some b, b, [])
  | 0, _, _ :: _ => none
  | fuel + 1, b, (x, y) :: rest =>
    match generate_candidates b x y with
    | none => some (none, b, rest)
    | some candidate_vals => tryCands fuel b x y rest candidate_vals
termination_by fuel _ _ => (fuel, 0)

/-- The `for value in candidate_vals` loop of `solver`.  Each iteration
writes the candidate into the cell and recurses on the tail queue; when
the recursive call returns something other than `None`, the loop returns
the current board (`return sudoku`; in Python the recursion's non-`None`
value is that same object).  On exhaustion the cell is reset to 0 and
`(x, y)` is pushed back on the front of the queue, and `None` is
returned. -/
def tryCands : Nat → Board → Nat → Nat → List (Nat × Nat) → List Int → Option SolverRes
  | _, b, x, y, zs, [] => some (none, setCell b x y 0, (x, y) :: zs)
  | fuel, b, x, y, zs, v :: vs =>
    match solverF fuel (setCell b x y v) zs with
    | none => none
    | some (some _, b2, zs2) => some (some b2, b2, zs2)
    | some (none, b2, zs2) => tryCands fuel b2 x y zs2 vs
termination_by fuel _ _ _ _ vs => (fuel, vs.length + 1)

end

/-- The all -1 sentinel grid `np.full((9, 9), -1)`. -/
def failureGrid : Board := List.replicate 9 (List.replicate 9 (-1))

/-- Translation of `sudoku_solver`.  The `tolist` conversion is the
identity on the values; Python's `if zeroes:` treats the `None` returned
by `find_spaces` on a full board exactly like an empty list, which is the
`Option.getD []`.  The fuel given to the solver is the queue length,
proved sufficient below. -/
def sudoku_solver (b : Board) : Board :=
  if check_invalid b then failureGrid
  else
    let zeroes := find_spaces b
    let zlist := zeroes.getD []
    match solverF zlist.length b zlist with
    | some (some sol, _, _) => sol
    | _ => failureGrid

/-- Row-major enumeration of the 3x3 offsets inside a box. -/
def boxPairs : List (Nat × Nat) :=
  (List.range 3).flatMap (fun i => (List.range 3).map (fun j => (i, j)))

/-- Some row, column, or box holds the same positive value at two
distinct positions. -/
def HasDupPos (b : Board) : Prop :=
  (∃ r i j, r < 9 ∧ i < 9 ∧ j < 9 ∧ i ≠ j ∧ 0 < get b r i ∧ get b r i = get b r j) ∨
  (∃ c i j, c < 9 ∧ i < 9 ∧ j < 9 ∧ i ≠ j ∧ 0 < get b i c ∧ get b i c = get b j c) ∨
  (∃ br bc i₁ j₁ i₂ j₂, br < 3 ∧ bc < 3 ∧ i₁ < 3 ∧ j₁ < 3 ∧ i₂ < 3 ∧ j₂ < 3 ∧
    (i₁, j₁) ≠ (i₂, j₂) ∧ 0 < get b (br * 3 + i₁) (bc * 3 + j₁) ∧
    get b (br * 3 + i₁) (bc * 3 + j₁) = get b (br * 3 + i₂) (bc * 3 + j₂))

/-! ### Solved boards and completions -/

/-- The nine values of a unit (row, column or box) read through an
accessor function. -/
def unitList (f : Nat → Int) : List Int := (List.range 9).map f

/-- Accessor for row `r`. -/
def rowf (b : Board) (r : Nat) : Nat → Int := fun c => get b r c

/-- Accessor for column `c`. -/
def colf (b : Board) (c : Nat) : Nat → Int := fun r => get b r c

/-- Accessor for the box with coordinates `(br, bc)`; index `k` runs over
its nine cells in row-major order. -/
def boxf (b : Board) (br bc : Nat) : Nat → Int :=
  fun k => get b (br * 3 + k / 3) (bc * 3 + k % 3)

/-- A fully solved grid: every row, column and 3x3 box holds each digit
1..9 exactly once, i.e. its value list is a permutation of `[1, ..., 9]`. -/
def IsSolvedGrid (b : Board) : Prop :=
  (∀ r, r < 9 → List.Perm (unitList (rowf b r)) nineList) ∧
  (∀ c, c < 9 → List.Perm (unitList (colf b c)) nineList) ∧
  (∀ br, br < 3 → ∀ bc, bc < 3 → List.Perm (unitList (boxf b br bc)) nineList)

instance (b : Board) : Decidable (IsSolvedGrid b) := by
  unfold IsSolvedGrid; infer_instance

/-- The board `S` agrees with `b` on every filled (non-zero) cell of `b`. -/
def Agrees (b S : Board) : Prop :=
  ∀ r, r < 9 → ∀ c, c < 9 → get b r c ≠ 0 → get S r c = get b r c

/-- A completion of `b`: a well-formed solved grid agreeing with every
filled cell of `b`. -/
def Completion (b S : Board) : Prop := Wf S ∧ IsSolvedGrid S ∧ Agrees b S

instance (b S : Board) : Decidable (Agrees b S) := by
  unfold Agrees; infer_instance

instance (b S : Board) : Decidable (Completion b S) := by
  unfold Completion; infer_instance

/-- Row-major comparison of coordinates. -/
def RowMajorLt (p q : Nat × Nat) : Prop := p.1 < q.1 ∨ (p.1 = q.1 ∧ p.2 < q.2)

/-- A board whose cell (0,0) has candidate set containing only 2 and 9:
CPython's set iteration then yields `[9, 2]`, not ascending order. -/
def boardC3 : Board :=
  [[0, 1, 3, 4, 5, 6, 7, 8, 0],
   [0, 0, 0, 0, 0, 0, 0, 0, 0],
   [0, 0, 0, 0, 0, 0, 0, 0, 0],
   [0, 0, 0, 0, 0, 0, 0, 0, 0],
   [0, 0, 0, 0, 0, 0, 0, 0, 0],
   [0, 0, 0, 0, 0, 0, 0, 0, 0],
   [0, 0, 0, 0, 0, 0, 0, 0, 0],
   [0, 0, 0, 0, 0, 0, 0, 0, 0],
   [0, 0, 0, 0, 0, 0, 0, 0, 0]]

/-- The all-zero board, used as a concrete instance below. -/
def emptyBoard : Board := List.replicate 9 (List.replicate 9 0)

/-! ### The search invariant -/

/-- Invariant tying a solver state (board `b`, empty-cell queue `zs`) to
the initial board `b0`: the board is well formed, the queue lists exactly
the zero cells (without duplicates, all in range), the board still agrees
with every filled cell of `b0`, all values are digits 0..9, and no unit
contains a duplicated positive value. -/
structure SearchInv (b0 b : Board) (zs : List (Nat × Nat)) : Prop where
  wf : Wf b
  coords : ∀ p ∈ zs, p.1 < 9 ∧ p.2 < 9
  nodup : zs.Nodup
  blank : ∀ p ∈ zs, get b p.1 p.2 = 0
  zeroCover : ∀ r, r < 9 → ∀ c, c < 9 → get b r c = 0 → (r, c) ∈ zs
  agree : Agrees b0 b
  lower : ∀ r, r < 9 → ∀ c, c < 9 → 0 ≤ get b r c
  upper : ∀ r, r < 9 → ∀ c, c < 9 → get b r c ≤ 9
  noDup : ¬ HasDupPos b

/-- Row-major enumeration of all 81 cell coordinates. -/
def allCells : List (Nat × Nat) :=
  (List.range 9).flatMap (fun r => (List.range 9).map (fun c => (r, c)))

/-- A heap of array/list objects addressed by naturals, used to state
the frame property of `sudoku_solver`: the input numpy array and the
fresh `tolist` copy are distinct objects. -/
def Store := Nat → Board

/-- Writing object `b` at address `a`. -/
def wr (σ : Store) (a : Nat) (b : Board) : Store :=
  fun x => if x = a then b else σ x

/-- The `sudoku_solver` pipeline acting on a store: the input array
lives at address `arr` and is only read (`check_invalid`, `tolist`);
`sudoku = sudoku.tolist()` allocates a fresh list at address `cpy` and
rebinds the local name to it; every in-place write of the solver targets
that list, whose final contents are the board component threaded through
`solverF`; the returned grid is a fresh value (`np.array`). -/
def sudoku_solver_st (σ : Store) (arr cpy : Nat) : Board × Store :=
  if check_invalid (σ arr) then (failureGrid, σ)
  else
    let σ1 := wr σ cpy (σ arr)
    let zeroes := find_spaces (σ1 cpy)
    let zlist := zeroes.getD []
    match solverF zlist.length (σ1 cpy) zlist with
    | some (some sol, bd, _) => (sol, wr σ1 cpy bd)
    | some (none, bd, _) => (failureGrid, wr σ1 cpy bd)
    | none => (failureGrid, σ1)

/-! ### Concrete boards for the witnesses -/

/-- A fully solved board (the solution the solver produces for the empty
board). -/
def solvedBoard : Board :=
  [[1, 2, 3, 4, 5, 8, 9, 6, 7],
   [4, 5, 8, 6, 7, 9, 1, 2, 3],
   [9, 6, 7, 1, 2, 3, 8, 4, 5],
   [2, 1, 9, 8, 3, 4, 5, 7, 6],
   [3, 8, 4, 5, 6, 7, 2, 1, 9],
   [5, 7, 6, 9, 1, 2, 3, 8, 4],
   [8, 9, 1, 3, 4, 6, 7, 5, 2],
   [6, 3, 2, 7, 8, 5, 4, 9, 1],
   [7, 4, 5, 2, 9, 1, 6, 3, 8]]

/-- A valid but unsolvable board: cell (0, 8) needs 9, blocked by the 9
in its column. -/
def unsolvBoard : Board :=
  [[1, 2, 3, 4, 5, 6, 7, 8, 0],
   [0, 0, 0, 0, 0, 0, 0, 0, 9],
   [0, 0, 0, 0, 0, 0, 0, 0, 0],
   [0, 0, 0, 0, 0, 0, 0, 0, 0],
   [0, 0, 0, 0, 0, 0, 0, 0, 0],
   [0, 0, 0, 0, 0, 0, 0, 0, 0],
   [0, 0, 0, 0, 0, 0, 0, 0, 0],
   [0, 0, 0, 0, 0, 0, 0, 0, 0],
   [0, 0, 0, 0, 0, 0, 0, 0, 0]]

/-! ### Properties of the CPython set model

Only sublists of `[1, ..., 9]` are ever inserted (the difference iterates
the left set, which lists `1..9` ascending, and filters it).  Over this
finite domain the model is checked exhaustively: the produced list is a
permutation of the inserted list, and it is ascending whenever at least
five values were inserted (the table has then been resized to 32 slots,
where the values 1..9 occupy distinct slots in ascending order). -/

theorem pySetList_spec_aux :
    ∀ l ∈ nineList.sublists,
      List.Perm (pySetList (pySetOfList l)) l ∧
        (5 ≤ l.length → (pySetList (pySetOfList l)).Pairwise (· < ·)) := by decide

theorem pySetList_perm {l : List Int} (h : l.Sublist nineList) :
    List.Perm (pySetList (pySetOfList l)) l :=
  (pySetList_spec_aux l (List.mem_sublists.2 h)).1

theorem pySetList_sorted_of_length {l : List Int} (h : l.Sublist nineList)
    (h5 : 5 ≤ l.length) : (pySetList (pySetOfList l)).Pairwise (· < ·) :=
  (pySetList_spec_aux l (List.mem_sublists.2 h)).2 h5

theorem leftList_eq : pySetList (pySetOfList nineList) = nineList := by decide

/-- Unfolding of `candVals` to the filtered base list fed into the result
set. -/
theorem candVals_eq (b : Board) (row col : Nat) :
    candVals b row col =
      pySetList (pySetOfList (nineList.filter (fun v =>
        !((boxValsGC b row col).contains v || (rowVals b row).contains v
            || (colVals b col).contains v)))) := by
  simp only [candVals, generate_candidates, Option.getD_some, leftList_eq]

theorem candVals_perm (b : Board) (row col : Nat) :
    List.Perm (candVals b row col)
      (nineList.filter (fun v =>
        !((boxValsGC b row col).contains v || (rowVals b row).contains v
            || (colVals b col).contains v))) := by
  rw [candVals_eq]; exact pySetList_perm (List.filter_sublist _)

theorem mem_rowVals {b : Board} {row : Nat} {v : Int} :
    v ∈ rowVals b row ↔ 0 < v ∧ ∃ i, i < 9 ∧ get b row i = v := by
  simp only [rowVals, List.mem_map, List.mem_filter, List.mem_range,
    decide_eq_true_eq]
  constructor
  · rintro ⟨i, ⟨hi, hpos⟩, rfl⟩; exact ⟨hpos, i, hi, rfl⟩
  · rintro ⟨hpos, i, hi, rfl⟩; exact ⟨i, ⟨hi, hpos⟩, rfl⟩

theorem mem_colVals {b : Board} {col : Nat} {v : Int} :
    v ∈ colVals b col ↔ 0 < v ∧ ∃ i, i < 9 ∧ get b i col = v := by
  simp only [colVals, List.mem_map, List.mem_filter, List.mem_range,
    decide_eq_true_eq]
  constructor
  · rintro ⟨i, ⟨hi, hpos⟩, rfl⟩; exact ⟨hpos, i, hi, rfl⟩
  · rintro ⟨hpos, i, hi, rfl⟩; exact ⟨i, ⟨hi, hpos⟩, rfl⟩

theorem mem_boxValsGC {b : Board} {row col : Nat} {v : Int} :
    v ∈ boxValsGC b row col ↔
      0 < v ∧ ∃ i j, i < 3 ∧ j < 3 ∧
        get b (row + i - row % 3) (col + j - col % 3) = v := by
  simp only [boxValsGC, List.mem_flatMap, List.mem_map, List.mem_filter,
    List.mem_range, decide_eq_true_eq]
  constructor
  · rintro ⟨i, hi, j, ⟨hj, hpos⟩, rfl⟩; exact ⟨hpos, i, j, hi, hj, rfl⟩
  · rintro ⟨hpos, i, j, hi, hj, rfl⟩; exact ⟨i, hi, j, ⟨hj, hpos⟩, rfl⟩

theorem mem_nineList {v : Int} : v ∈ nineList ↔ 1 ≤ v ∧ v ≤ 9 := by
  simp only [nineList, List.mem_cons, List.not_mem_nil, or_false]
  omega

/-- Semantic characterisation of the candidate list: exactly the digits
1..9 that occur nowhere in the cell's row, column, or box. -/
theorem mem_candVals {b : Board} {row col : Nat} {v : Int} :
    v ∈ candVals b row col ↔
      (1 ≤ v ∧ v ≤ 9) ∧
        (∀ i, i < 9 → get b row i ≠ v) ∧
        (∀ i, i < 9 → get b i col ≠ v) ∧
        (∀ i j, i < 3 → j < 3 →
          get b (row - row % 3 + i) (col - col % 3 + j) ≠ v) := by
  rw [(candVals_perm b row col).mem_iff, List.mem_filter]
  have hmod_r : row % 3 ≤ row := Nat.mod_le _ _
  have hmod_c : col % 3 ≤ col := Nat.mod_le _ _
  simp only [Bool.not_eq_true', Bool.or_eq_false_iff, List.contains_eq_any_beq,
    List.any_eq_false, beq_iff_eq, mem_nineList]
  constructor
  · rintro ⟨⟨h1, h9⟩, ⟨hbox, hrow⟩, hcol⟩
    refine ⟨⟨h1, h9⟩, ?_, ?_, ?_⟩
    · intro i hi hv
      exact hrow _ (mem_rowVals.2 ⟨by omega, i, hi, hv⟩) rfl
    · intro i hi hv
      exact hcol _ (mem_colVals.2 ⟨by omega, i, hi, hv⟩) rfl
    · intro i j hi hj hv
      refine hbox _ (mem_boxValsGC.2 ⟨by omega, i, j, hi, hj, ?_⟩) rfl
      rw [show row + i - row % 3 = row - row % 3 + i by omega,
        show col + j - col % 3 = col - col % 3 + j by omega]
      exact hv
  · rintro ⟨⟨h1, h9⟩, hrow, hcol, hbox⟩
    refine ⟨⟨h1, h9⟩, ⟨?_, ?_⟩, ?_⟩
    · intro w hw hbeq
      obtain ⟨-, i, j, hi, hj, hv⟩ := mem_boxValsGC.1 hw
      refine hbox i j hi hj ?_
      rw [show row - row % 3 + i = row + i - row % 3 by omega,
        show col - col % 3 + j = col + j - col % 3 by omega]
      rw [hv]; exact hbeq.symm
    · intro w hw hbeq
      obtain ⟨-, i, hi, hv⟩ := mem_rowVals.1 hw
      exact hrow i hi (by rw [hv]; exact hbeq.symm)
    · intro w hw hbeq
      obtain ⟨-, i, hi, hv⟩ := mem_colVals.1 hw
      exact hcol i hi (by rw [hv]; exact hbeq.symm)

/-! ### Duplicate detection: characterising `check_invalid` -/

theorem dedup_length_ne_iff {l : List Int} :
    l.dedup.length ≠ l.length ↔ ¬ l.Nodup := by
  constructor
  · intro h hn; exact h (by rw [List.dedup_eq_self.2 hn])
  · intro hn h
    exact hn (List.dedup_eq_self.1 ((List.dedup_sublist l).eq_of_length h))

/-- A filtered-positives value list is duplicate-free iff no two distinct
index positions carry the same positive value. -/
theorem nodup_posVals_iff {ι : Type} (idx : List ι) (f : ι → Int) (hidx : idx.Nodup) :
    ((idx.filter (fun i => decide (0 < f i))).map f).Nodup ↔
      ∀ i ∈ idx, ∀ j ∈ idx, i ≠ j → 0 < f i → f i ≠ f j := by
  rw [List.nodup_map_iff_inj_on (hidx.filter _)]
  constructor
  · intro h i hi j hj hne hpos heq
    exact hne (h i (List.mem_filter.2 ⟨hi, by simpa using hpos⟩)
      j (List.mem_filter.2 ⟨hj, by simp only [decide_eq_true_eq]; omega⟩) heq)
  · intro h i hi j hj heq
    by_contra hne
    obtain ⟨hi', hpi⟩ := List.mem_filter.1 hi
    exact h i hi' j (List.mem_filter.1 hj).1 hne (by simpa using hpi) heq

theorem rowVals_dup_iff {b : Board} {idx : Nat} :
    (rowVals b idx).dedup.length ≠ (rowVals b idx).length ↔
      ∃ i j, i < 9 ∧ j < 9 ∧ i ≠ j ∧ 0 < get b idx i ∧ get b idx i = get b idx j := by
  rw [rowVals, dedup_length_ne_iff,
    nodup_posVals_iff (List.range 9) (fun i => get b idx i) (List.nodup_range 9)]
  push_neg
  constructor
  · rintro ⟨i, hi, j, hj, hne, hpos, heq⟩
    exact ⟨i, j, List.mem_range.1 hi, List.mem_range.1 hj, hne, hpos, heq⟩
  · rintro ⟨i, j, hi, hj, hne, hpos, heq⟩
    exact ⟨i, List.mem_range.2 hi, j, List.mem_range.2 hj, hne, hpos, heq⟩

theorem colVals_dup_iff {b : Board} {idx : Nat} :
    (colVals b idx).dedup.length ≠ (colVals b idx).length ↔
      ∃ i j, i < 9 ∧ j < 9 ∧ i ≠ j ∧ 0 < get b i idx ∧ get b i idx = get b j idx := by
  rw [colVals, dedup_length_ne_iff,
    nodup_posVals_iff (List.range 9) (fun i => get b i idx) (List.nodup_range 9)]
  push_neg
  constructor
  · rintro ⟨i, hi, j, hj, hne, hpos, heq⟩
    exact ⟨i, j, List.mem_range.1 hi, List.mem_range.1 hj, hne, hpos, heq⟩
  · rintro ⟨i, j, hi, hj, hne, hpos, heq⟩
    exact ⟨i, List.mem_range.2 hi, j, List.mem_range.2 hj, hne, hpos, heq⟩

theorem boxPairs_nodup : boxPairs.Nodup := by decide

theorem mem_boxPairs {p : Nat × Nat} : p ∈ boxPairs ↔ p.1 < 3 ∧ p.2 < 3 := by
  cases p with
  | mk i j =>
    simp only [boxPairs, List.mem_flatMap, List.mem_map, List.mem_range]
    constructor
    · rintro ⟨a, ha, c, hc, h⟩
      cases h; exact ⟨ha, hc⟩
    · rintro ⟨hi, hj⟩; exact ⟨i, hi, j, hj, rfl⟩

/-- The nested `box_vals` loop of `check_invalid`, rewritten as a
filter-map over the box offset pairs. -/
theorem boxValsCI_eq (b : Board) (ri ci : Nat) :
    boxValsCI b ri ci =
      (boxPairs.filter (fun p => decide (0 < get b (ri * 3 + p.1) (ci * 3 + p.2)))).map
        (fun p => get b (ri * 3 + p.1) (ci * 3 + p.2)) := by
  simp only [boxValsCI, boxPairs, List.filter_flatMap, List.map_flatMap,
    List.filter_map, List.map_map]
  rfl

theorem boxVals_dup_iff {b : Board} {ri ci : Nat} :
    (boxValsCI b ri ci).dedup.length ≠ (boxValsCI b ri ci).length ↔
      ∃ i₁ j₁ i₂ j₂, i₁ < 3 ∧ j₁ < 3 ∧ i₂ < 3 ∧ j₂ < 3 ∧ (i₁, j₁) ≠ (i₂, j₂) ∧
        0 < get b (ri * 3 + i₁) (ci * 3 + j₁) ∧
        get b (ri * 3 + i₁) (ci * 3 + j₁) = get b (ri * 3 + i₂) (ci * 3 + j₂) := by
  rw [boxValsCI_eq, dedup_length_ne_iff,
    nodup_posVals_iff boxPairs (fun p => get b (ri * 3 + p.1) (ci * 3 + p.2)) boxPairs_nodup]
  push_neg
  constructor
  · rintro ⟨⟨i₁, j₁⟩, hp, ⟨i₂, j₂⟩, hq, hne, hpos, heq⟩
    obtain ⟨h1, h2⟩ := mem_boxPairs.1 hp
    obtain ⟨h3, h4⟩ := mem_boxPairs.1 hq
    exact ⟨i₁, j₁, i₂, j₂, h1, h2, h3, h4, hne, hpos, heq⟩
  · rintro ⟨i₁, j₁, i₂, j₂, h1, h2, h3, h4, hne, hpos, heq⟩
    exact ⟨(i₁, j₁), mem_boxPairs.2 ⟨h1, h2⟩, (i₂, j₂), mem_boxPairs.2 ⟨h3, h4⟩, hne, hpos, heq⟩

theorem check_invalid_iff {b : Board} : check_invalid b = true ↔ HasDupPos b := by
  simp only [check_invalid, Bool.or_eq_true, List.any_eq_true, List.mem_range,
    decide_eq_true_eq, HasDupPos]
  constructor
  · rintro (⟨idx, hidx, hcol | hrow⟩ | ⟨ri, hri, ci, hci, hbox⟩)
    · obtain ⟨i, j, hi, hj, hne, hpos, heq⟩ := colVals_dup_iff.1 hcol
      exact Or.inr (Or.inl ⟨idx, i, j, hidx, hi, hj, hne, hpos, heq⟩)
    · obtain ⟨i, j, hi, hj, hne, hpos, heq⟩ := rowVals_dup_iff.1 hrow
      exact Or.inl ⟨idx, i, j, hidx, hi, hj, hne, hpos, heq⟩
    · obtain ⟨i₁, j₁, i₂, j₂, h1, h2, h3, h4, hne, hpos, heq⟩ := boxVals_dup_iff.1 hbox
      exact Or.inr (Or.inr ⟨ri, ci, i₁, j₁, i₂, j₂, hri, hci, h1, h2, h3, h4, hne, hpos, heq⟩)
  · rintro (⟨r, i, j, hr, hi, hj, hne, hpos, heq⟩ | ⟨c, i, j, hc, hi, hj, hne, hpos, heq⟩ |
      ⟨br, bc, i₁, j₁, i₂, j₂, hbr, hbc, h1, h2, h3, h4, hne, hpos, heq⟩)
    · exact Or.inl ⟨r, hr, Or.inr (rowVals_dup_iff.2 ⟨i, j, hi, hj, hne, hpos, heq⟩)⟩
    · exact Or.inl ⟨c, hc, Or.inl (colVals_dup_iff.2 ⟨i, j, hi, hj, hne, hpos, heq⟩)⟩
    · exact Or.inr ⟨br, hbr, bc, hbc,
        boxVals_dup_iff.2 ⟨i₁, j₁, i₂, j₂, h1, h2, h3, h4, hne, hpos, heq⟩⟩

/-! ### Claim C4: specification of `check_invalid` -/

/-- Claim C4: `check_invalid` returns true exactly when some row, column,
or (non-overlapping) 3x3 box holds the same non-zero value at two
distinct positions.  (`check_invalid` is a Lean function, hence trivially
pure.)  The hypothesis restricts to non-negative cell values, the range
of the data model, under which Python's `> 0` test coincides with
"non-zero". -/
theorem check_invalid_spec (b : Board)
    (hnn : ∀ r, r < 9 → ∀ c, c < 9 → 0 ≤ get b r c) :
    check_invalid b = true ↔
      ((∃ r i j, r < 9 ∧ i < 9 ∧ j < 9 ∧ i ≠ j ∧
          get b r i ≠ 0 ∧ get b r i = get b r j) ∨
       (∃ c i j, c < 9 ∧ i < 9 ∧ j < 9 ∧ i ≠ j ∧
          get b i c ≠ 0 ∧ get b i c = get b j c) ∨
       (∃ br bc i₁ j₁ i₂ j₂, br < 3 ∧ bc < 3 ∧ i₁ < 3 ∧ j₁ < 3 ∧ i₂ < 3 ∧ j₂ < 3 ∧
          (i₁, j₁) ≠ (i₂, j₂) ∧ get b (br * 3 + i₁) (bc * 3 + j₁) ≠ 0 ∧
          get b (br * 3 + i₁) (bc * 3 + j₁) = get b (br * 3 + i₂) (bc * 3 + j₂))) := by
  rw [check_invalid_iff]
  unfold HasDupPos
  constructor
  · rintro (⟨r, i, j, hr, hi, hj, hne, hpos, heq⟩ | ⟨c, i, j, hc, hi, hj, hne, hpos, heq⟩ |
      ⟨br, bc, i₁, j₁, i₂, j₂, hbr, hbc, h1, h2, h3, h4, hne, hpos, heq⟩)
    · exact Or.inl ⟨r, i, j, hr, hi, hj, hne, by omega, heq⟩
    · exact Or.inr (Or.inl ⟨c, i, j, hc, hi, hj, hne, by omega, heq⟩)
    · exact Or.inr (Or.inr ⟨br, bc, i₁, j₁, i₂, j₂, hbr, hbc, h1, h2, h3, h4, hne, by omega, heq⟩)
  · rintro (⟨r, i, j, hr, hi, hj, hne, hnz, heq⟩ | ⟨c, i, j, hc, hi, hj, hne, hnz, heq⟩ |
      ⟨br, bc, i₁, j₁, i₂, j₂, hbr, hbc, h1, h2, h3, h4, hne, hnz, heq⟩)
    · exact Or.inl ⟨r, i, j, hr, hi, hj, hne, lt_of_le_of_ne (hnn r hr i hi) (Ne.symm hnz), heq⟩
    · exact Or.inr (Or.inl ⟨c, i, j, hc, hi, hj, hne,
        lt_of_le_of_ne (hnn i hi c hc) (Ne.symm hnz), heq⟩)
    · refine Or.inr (Or.inr ⟨br, bc, i₁, j₁, i₂, j₂, hbr, hbc, h1, h2, h3, h4, hne, ?_, heq⟩)
      exact lt_of_le_of_ne (hnn _ (by omega) _ (by omega)) (Ne.symm hnz)

/-! ### Claim C5: specification of `generate_candidates` -/

/-- Claim C5: for any in-range empty cell, the candidate list holds
exactly the digits 1..9 that occur nowhere in the cell's row, its column,
or its 3x3 box (box corner at `(row - row % 3, col - col % 3)`). -/
theorem generate_candidates_complement (b : Board) (row col : Nat)
    (hr : row < 9) (hc : col < 9) (h0 : get b row col = 0) :
    ∀ v : Int, v ∈ candVals b row col ↔
      (1 ≤ v ∧ v ≤ 9) ∧
        (∀ i, i < 9 → get b row i ≠ v) ∧
        (∀ i, i < 9 → get b i col ≠ v) ∧
        (∀ i j, i < 3 → j < 3 →
          get b (row - row % 3 + i) (col - col % 3 + j) ≠ v) :=
  fun _ => mem_candVals

/-! ### The empty-cell queue: membership and row-major order -/

theorem mem_zeroesOf {b : Board} {p : Nat × Nat} :
    p ∈ zeroesOf b ↔ p.1 < 9 ∧ p.2 < 9 ∧ get b p.1 p.2 = 0 := by
  cases p with
  | mk r c =>
    simp only [zeroesOf, List.mem_flatMap, List.mem_map, List.mem_filter,
      List.mem_range, decide_eq_true_eq]
    constructor
    · rintro ⟨a, ha, d, ⟨hd, hz⟩, h⟩
      cases h; exact ⟨ha, hd, hz⟩
    · rintro ⟨hr, hc, hz⟩; exact ⟨r, hr, c, ⟨hc, hz⟩, rfl⟩

theorem zeroesOf_pairwise (b : Board) : (zeroesOf b).Pairwise RowMajorLt := by
  unfold zeroesOf
  rw [List.pairwise_flatMap]
  constructor
  · intro r _
    rw [List.pairwise_map]
    refine List.Pairwise.imp ?_ ((List.pairwise_lt_range 9).filter _)
    intro c c' h
    exact Or.inr ⟨rfl, h⟩
  · refine (List.pairwise_lt_range 9).imp ?_
    intro r r' hlt p hp q hq
    obtain ⟨c, -, rfl⟩ := List.mem_map.1 hp
    obtain ⟨c', -, rfl⟩ := List.mem_map.1 hq
    exact Or.inl hlt

theorem zeroesOf_nodup (b : Board) : (zeroesOf b).Nodup := by
  refine (zeroesOf_pairwise b).imp ?_
  intro p q h heq
  subst heq
  rcases h with h | ⟨-, h⟩ <;> exact lt_irrefl _ h

theorem find_spaces_eq_some {b : Board} {zs : List (Nat × Nat)}
    (h : find_spaces b = some zs) : zs = zeroesOf b := by
  have h' : (if (zeroesOf b).isEmpty then none else some (zeroesOf b)) = some zs := h
  split at h'
  · cases h'
  · cases h'; rfl

theorem find_spaces_eq_none {b : Board}
    (h : ∀ r, r < 9 → ∀ c, c < 9 → get b r c ≠ 0) : find_spaces b = none := by
  have hz : zeroesOf b = [] := by
    refine List.eq_nil_iff_forall_not_mem.2 ?_
    intro p hp
    obtain ⟨h1, h2, h3⟩ := mem_zeroesOf.1 hp
    exact h p.1 h1 p.2 h2 h3
  unfold find_spaces
  rw [hz]
  rfl

/-! ### Claim C3: search order -/

/-- Counterexample to claim C3: on `boardC3` the candidate list of the
empty in-range cell (0,0) is `[9, 2]`, which is not ascending, refuting
"the list returned by generate_candidates is always sorted ascending". -/
theorem generate_candidates_not_sorted :
    get boardC3 0 0 = 0 ∧
    candVals boardC3 0 0 = [9, 2] ∧
    ¬ (candVals boardC3 0 0).Pairwise (· ≤ ·) := by decide

/-- Claim C3 as amended: the search order is fully deterministic and
fixed (both functions below are functions of the board alone); empty
cells are visited in row-major order; the candidate list of a cell
enumerates each candidate digit exactly once, and it is ascending
whenever it has at least five entries (CPython's set iteration order is
ascending after the resize to a 32-slot table), though not in general. -/
theorem search_order_spec :
    (∀ b zs, find_spaces b = some zs → zs.Pairwise RowMajorLt) ∧
    (∀ b row col, (candVals b row col).Nodup ∧
      (5 ≤ (candVals b row col).length → (candVals b row col).Pairwise (· < ·))) := by
  constructor
  · intro b zs h
    rw [find_spaces_eq_some h]
    exact zeroesOf_pairwise b
  · intro b row col
    constructor
    · exact (candVals_perm b row col).nodup_iff.2
        ((by decide : nineList.Nodup).filter _)
    · intro h5
      rw [candVals_eq]
      refine pySetList_sorted_of_length (List.filter_sublist _) ?_
      have hlen := (candVals_perm b row col).length_eq
      rw [candVals_eq] at hlen h5
      omega

/-- Witness instantiating `search_order_spec` on the all-zero board. -/
theorem search_order_spec_witness :
    (zeroesOf emptyBoard).Pairwise RowMajorLt ∧
      5 ≤ (candVals emptyBoard 0 0).length ∧
      (candVals emptyBoard 0 0).Pairwise (· < ·) :=
  ⟨search_order_spec.1 emptyBoard (zeroesOf emptyBoard) (by decide),
   by decide,
   (search_order_spec.2 emptyBoard 0 0).2 (by decide)⟩

/-! ### Reading and writing cells -/

theorem list_set_getD {α : Type} (l : List α) (i : Nat) (d : α) :
    l.set i (l.getD i d) = l := by
  induction l generalizing i with
  | nil => rfl
  | cons a t ih =>
    cases i with
    | zero => rfl
    | succ n => exact congrArg (a :: ·) (ih n)

theorem setCell_zero_restore {b : Board} {x y : Nat} (h : get b x y = 0) :
    setCell b x y 0 = b := by
  have : setCell b x y (get b x y) = b := by
    show b.set x ((b.getD x []).set y ((b.getD x []).getD y 0)) = b
    rw [list_set_getD, list_set_getD]
  rw [h] at this
  exact this

theorem getD_out {α : Type} {l : List α} {i : Nat} (h : l.length ≤ i) (d : α) :
    l.getD i d = d := by
  rw [List.getD_eq_getElem?_getD, List.getElem?_eq_none h]
  rfl

theorem getD_in {α : Type} {l : List α} {i : Nat} (h : i < l.length) (d : α) :
    l.getD i d = l[i] := by
  rw [List.getD_eq_getElem?_getD, List.getElem?_eq_getElem h]
  rfl

theorem get_eq_q (b : Board) (r c : Nat) :
    get b r c = ((b[r]?).getD [])[c]?.getD 0 := by
  unfold get
  rw [List.getD_eq_getElem?_getD, List.getD_eq_getElem?_getD]

theorem get_setCell_self {b : Board} {x y : Nat} {v : Int}
    (hx : x < b.length) (hy : y < (b.getD x []).length) :
    get (setCell b x y v) x y = v := by
  rw [get_eq_q]
  unfold setCell
  rw [List.getElem?_set_self (by simpa using hx)]
  simp only [Option.getD_some]
  rw [List.getElem?_set_self (by simpa using hy)]
  rfl

theorem get_setCell_zero (b : Board) (x y : Nat) :
    get (setCell b x y 0) x y = 0 := by
  rcases Nat.lt_or_ge x b.length with hx | hx
  · rcases Nat.lt_or_ge y (b.getD x []).length with hy | hy
    · exact get_setCell_self hx hy
    · rw [get_eq_q]
      unfold setCell
      rw [List.getElem?_set_self (by simpa using hx)]
      simp only [Option.getD_some]
      rw [List.set_eq_of_length_le hy, List.getElem?_eq_none hy]
      rfl
  · rw [get_eq_q]
    unfold setCell
    rw [List.set_eq_of_length_le hx, List.getElem?_eq_none hx]
    simp

theorem get_setCell_ne (b : Board) {x y r c : Nat} (v : Int)
    (h : (r, c) ≠ (x, y)) : get (setCell b x y v) r c = get b r c := by
  rw [get_eq_q, get_eq_q]
  unfold setCell
  rcases eq_or_ne r x with rfl | hr
  · have hc : c ≠ y := fun hcy => h (by rw [hcy])
    rcases Nat.lt_or_ge r b.length with hx | hx
    · rw [List.getElem?_set_self (by simpa using hx)]
      simp only [Option.getD_some]
      rw [List.getElem?_set_ne (Ne.symm hc)]
      rw [getD_in hx, List.getElem?_eq_getElem hx]
      rfl
    · rw [List.set_eq_of_length_le hx]
  · rw [List.getElem?_set_ne (Ne.symm hr)]

theorem setCell_setCell (b : Board) (x y : Nat) (v w : Int) :
    setCell (setCell b x y v) x y w = setCell b x y w := by
  unfold setCell
  rcases Nat.lt_or_ge x b.length with hx | hx
  · rw [getD_in (show x < (b.set x ((b.getD x []).set y v)).length by simpa using hx),
      List.getElem_set_self, List.set_set, List.set_set]
  · rw [List.set_eq_of_length_le hx, List.set_eq_of_length_le hx]

theorem setCell_length (b : Board) (x y : Nat) (v : Int) :
    (setCell b x y v).length = b.length := List.length_set ..

theorem wf_setCell {b : Board} (h : Wf b) {x : Nat} (hx : x < 9) (y : Nat) (v : Int) :
    Wf (setCell b x y v) := by
  obtain ⟨h1, h2⟩ := h
  refine ⟨by rw [setCell_length, h1], ?_⟩
  intro row hrow
  rcases List.mem_or_eq_of_mem_set hrow with hmem | rfl
  · exact h2 _ hmem
  · rw [List.length_set, getD_in (by omega)]
    exact h2 _ (List.getElem_mem _)

/-! ### Facts about solved grids and completions -/

theorem mem_unitList {f : Nat → Int} {k : Nat} (hk : k < 9) : f k ∈ unitList f :=
  List.mem_map.2 ⟨k, List.mem_range.2 hk, rfl⟩

theorem solved_unit_range {f : Nat → Int} (h : List.Perm (unitList f) nineList)
    {k : Nat} (hk : k < 9) : 1 ≤ f k ∧ f k ≤ 9 :=
  mem_nineList.1 (h.subset (mem_unitList hk))

theorem solved_unit_inj {f : Nat → Int} (h : List.Perm (unitList f) nineList)
    {k k' : Nat} (hk : k < 9) (hk' : k' < 9) (heq : f k = f k') : k = k' := by
  have hnd : (unitList f).Nodup := h.nodup_iff.2 (by decide)
  exact (List.nodup_map_iff_inj_on (List.nodup_range 9)).1 hnd
    k (List.mem_range.2 hk) k' (List.mem_range.2 hk') heq

theorem boxf_eq_get (S : Board) {i j : Nat} (br bc : Nat) (hi : i < 3) (hj : j < 3) :
    boxf S br bc (i * 3 + j) = get S (br * 3 + i) (bc * 3 + j) := by
  unfold boxf
  rw [show (i * 3 + j) / 3 = i by omega, show (i * 3 + j) % 3 = j by omega]

/-- Any in-range cell read through its containing box accessor. -/
theorem boxf_cell (S : Board) {r c : Nat} (hr : r < 9) (hc : c < 9) :
    boxf S (r / 3) (c / 3) ((r % 3) * 3 + c % 3) = get S r c := by
  unfold boxf
  rw [show r / 3 * 3 + (r % 3 * 3 + c % 3) / 3 = r by omega,
    show c / 3 * 3 + (r % 3 * 3 + c % 3) % 3 = c by omega]

theorem solved_cell_range {S : Board} (hS : IsSolvedGrid S) {r c : Nat}
    (hr : r < 9) (hc : c < 9) : 1 ≤ get S r c ∧ get S r c ≤ 9 :=
  solved_unit_range (hS.1 r hr) hc

theorem solved_no_dup {S : Board} (hS : IsSolvedGrid S) : ¬ HasDupPos S := by
  rintro (⟨r, i, j, hr, hi, hj, hne, hpos, heq⟩ | ⟨c, i, j, hc, hi, hj, hne, hpos, heq⟩ |
    ⟨br, bc, i₁, j₁, i₂, j₂, hbr, hbc, h1, h2, h3, h4, hne, hpos, heq⟩)
  · exact hne (solved_unit_inj (hS.1 r hr) hi hj heq)
  · exact hne (solved_unit_inj (hS.2.1 c hc) hi hj heq)
  · have e1 := boxf_eq_get S br bc h1 h2
    have e2 := boxf_eq_get S br bc h3 h4
    have hk := solved_unit_inj (hS.2.2 br hbr bc hbc)
      (show i₁ * 3 + j₁ < 9 by omega) (show i₂ * 3 + j₂ < 9 by omega)
      (by rw [e1, e2]; exact heq)
    have hij : i₁ = i₂ ∧ j₁ = j₂ := by omega
    exact hne (by rw [hij.1, hij.2])

theorem completion_no_dup {b S : Board} (hc : Completion b S) : ¬ HasDupPos b := by
  obtain ⟨hWf, hSol, hAg⟩ := hc
  rintro (⟨r, i, j, hr, hi, hj, hne, hpos, heq⟩ | ⟨c, i, j, hcol, hi, hj, hne, hpos, heq⟩ |
    ⟨br, bc, i₁, j₁, i₂, j₂, hbr, hbc, h1, h2, h3, h4, hne, hpos, heq⟩)
  · have e1 := hAg r hr i hi (by omega)
    have e2 := hAg r hr j hj (by omega)
    refine hne (solved_unit_inj (hSol.1 r hr) hi hj ?_)
    show get S r i = get S r j
    rw [e1, e2, heq]
  · have e1 := hAg i hi c hcol (by omega)
    have e2 := hAg j hj c hcol (by omega)
    refine hne (solved_unit_inj (hSol.2.1 c hcol) hi hj ?_)
    show get S i c = get S j c
    rw [e1, e2, heq]
  · have e1 := hAg (br * 3 + i₁) (by omega) (bc * 3 + j₁) (by omega) (by omega)
    have e2 := hAg (br * 3 + i₂) (by omega) (bc * 3 + j₂) (by omega) (by omega)
    have hk := solved_unit_inj (hSol.2.2 br hbr bc hbc)
      (show i₁ * 3 + j₁ < 9 by omega) (show i₂ * 3 + j₂ < 9 by omega)
      (by rw [boxf_eq_get S br bc h1 h2, boxf_eq_get S br bc h3 h4, e1, e2, heq])
    have hij : i₁ = i₂ ∧ j₁ = j₂ := by omega
    exact hne (by rw [hij.1, hij.2])

/-- If a completion of `b` exists and `(x, y)` is a blank in-range cell,
the digit the completion places there is among the generated candidates. -/
theorem completion_digit_mem {b S : Board} (hcomp : Completion b S) {x y : Nat}
    (hx : x < 9) (hy : y < 9) (hblank : get b x y = 0) :
    get S x y ∈ candVals b x y := by
  obtain ⟨hWfS, hSol, hAg⟩ := hcomp
  have hrange := solved_cell_range hSol hx hy
  rw [mem_candVals]
  refine ⟨hrange, ?_, ?_, ?_⟩
  · intro i hi heq
    have hSi : get S x i = get b x i := hAg x hx i hi (by omega)
    have hiy : i = y := by
      refine solved_unit_inj (hSol.1 x hx) hi hy ?_
      show get S x i = get S x y
      rw [hSi, heq]
    subst hiy
    omega
  · intro i hi heq
    have hSi : get S i y = get b i y := hAg i hi y hy (by omega)
    have hix : i = x := by
      refine solved_unit_inj (hSol.2.1 y hy) hi hx ?_
      show get S i y = get S x y
      rw [hSi, heq]
    subst hix
    omega
  · intro i j hi hj heq
    have hr9 : x - x % 3 + i < 9 := by omega
    have hc9 : y - y % 3 + j < 9 := by omega
    have hSi : get S (x - x % 3 + i) (y - y % 3 + j) =
        get b (x - x % 3 + i) (y - y % 3 + j) :=
      hAg _ hr9 _ hc9 (by omega)
    have e1 := boxf_cell S hr9 hc9
    rw [show (x - x % 3 + i) / 3 = x / 3 by omega,
      show (y - y % 3 + j) / 3 = y / 3 by omega] at e1
    have e2 := boxf_cell S hx hy
    have hk := solved_unit_inj (hSol.2.2 (x / 3) (by omega) (y / 3) (by omega))
      (show ((x - x % 3 + i) % 3) * 3 + (y - y % 3 + j) % 3 < 9 by omega)
      (show (x % 3) * 3 + y % 3 < 9 by omega)
      (by rw [e1, e2, hSi, heq])
    have hxy : x - x % 3 + i = x ∧ y - y % 3 + j = y := by omega
    rw [hxy.1, hxy.2] at heq
    omega

/-- Writing a generated candidate into the popped blank cell preserves
the search invariant. -/
theorem inv_step {b0 b : Board} {x y : Nat} {rest : List (Nat × Nat)}
    (inv : SearchInv b0 b ((x, y) :: rest)) {v : Int}
    (hv : v ∈ candVals b x y) : SearchInv b0 (setCell b x y v) rest := by
  have hx9 : x < 9 := (inv.coords (x, y) (List.mem_cons_self _ _)).1
  have hy9 : y < 9 := (inv.coords (x, y) (List.mem_cons_self _ _)).2
  obtain ⟨⟨hv1, hv9⟩, hrow, hcol, hbox⟩ := mem_candVals.1 hv
  have hWf := inv.wf
  have hbx : x < b.length := by rw [hWf.1]; exact hx9
  have hby : y < (b.getD x []).length := by
    rw [getD_in hbx, hWf.2 _ (List.getElem_mem _)]
    exact hy9
  have hself : get (setCell b x y v) x y = v := get_setCell_self hbx hby
  have hne : ∀ r c, ((r, c) : Nat × Nat) ≠ (x, y) →
      get (setCell b x y v) r c = get b r c :=
    fun r c h => get_setCell_ne b v h
  have hnotin : (x, y) ∉ rest := (List.nodup_cons.1 inv.nodup).1
  refine ⟨wf_setCell hWf hx9 y v,
    fun p hp => inv.coords p (List.mem_cons_of_mem _ hp),
    (List.nodup_cons.1 inv.nodup).2, ?_, ?_, ?_, ?_, ?_, ?_⟩
  · intro p hp
    have hpne : ((p.1, p.2) : Nat × Nat) ≠ (x, y) := by
      rw [Prod.mk.eta]
      exact fun h => hnotin (h ▸ hp)
    rw [hne p.1 p.2 hpne]
    exact inv.blank p (List.mem_cons_of_mem _ hp)
  · intro r hr c hc h0
    by_cases hpq : ((r, c) : Nat × Nat) = (x, y)
    · obtain ⟨rfl, rfl⟩ := Prod.ext_iff.1 hpq
      rw [hself] at h0
      omega
    · rw [hne r c hpq] at h0
      rcases List.mem_cons.1 (inv.zeroCover r hr c hc h0) with heq | hmem
      · exact absurd heq hpq
      · exact hmem
  · intro r hr c hc hnz
    by_cases hpq : ((r, c) : Nat × Nat) = (x, y)
    · obtain ⟨rfl, rfl⟩ := Prod.ext_iff.1 hpq
      have hblank0 : get b r c = 0 := inv.blank (r, c) (List.mem_cons_self _ _)
      have hag := inv.agree r hr c hc hnz
      omega
    · rw [hne r c hpq]
      exact inv.agree r hr c hc hnz
  · intro r hr c hc
    by_cases hpq : ((r, c) : Nat × Nat) = (x, y)
    · obtain ⟨rfl, rfl⟩ := Prod.ext_iff.1 hpq
      rw [hself]; omega
    · rw [hne r c hpq]; exact inv.lower r hr c hc
  · intro r hr c hc
    by_cases hpq : ((r, c) : Nat × Nat) = (x, y)
    · obtain ⟨rfl, rfl⟩ := Prod.ext_iff.1 hpq
      rw [hself]; omega
    · rw [hne r c hpq]; exact inv.upper r hr c hc
  · rintro (⟨r, i, j, hr, hi, hj, hne2, hpos, heq⟩ |
      ⟨c, i, j, hc, hi, hj, hne2, hpos, heq⟩ |
      ⟨br, bc, i₁, j₁, i₂, j₂, hbr, hbc, h1, h2, h3, h4, hne2, hpos, heq⟩)
    · by_cases e1 : ((r, i) : Nat × Nat) = (x, y)
      · obtain ⟨rfl, rfl⟩ := Prod.ext_iff.1 e1
        have e2 : ((r, j) : Nat × Nat) ≠ (r, i) := by
          intro h
          exact hne2 ((Prod.ext_iff.1 h).2).symm
        rw [hself] at heq
        rw [hne r j e2] at heq
        exact hrow j hj heq.symm
      · by_cases e2 : ((r, j) : Nat × Nat) = (x, y)
        · obtain ⟨rfl, rfl⟩ := Prod.ext_iff.1 e2
          rw [hself] at heq
          rw [hne r i e1] at heq
          exact hrow i hi heq
        · rw [hne r i e1] at hpos heq
          rw [hne r j e2] at heq
          exact inv.noDup (Or.inl ⟨r, i, j, hr, hi, hj, hne2, hpos, heq⟩)
    · by_cases e1 : ((i, c) : Nat × Nat) = (x, y)
      · obtain ⟨rfl, rfl⟩ := Prod.ext_iff.1 e1
        have e2 : ((j, c) : Nat × Nat) ≠ (i, c) := by
          intro h
          exact hne2 ((Prod.ext_iff.1 h).1).symm
        rw [hself] at heq
        rw [hne j c e2] at heq
        exact hcol j hj heq.symm
      · by_cases e2 : ((j, c) : Nat × Nat) = (x, y)
        · obtain ⟨rfl, rfl⟩ := Prod.ext_iff.1 e2
          rw [hself] at heq
          rw [hne i c e1] at heq
          exact hcol i hi heq
        · rw [hne i c e1] at hpos heq
          rw [hne j c e2] at heq
          exact inv.noDup (Or.inr (Or.inl ⟨c, i, j, hc, hi, hj, hne2, hpos, heq⟩))
    · by_cases e1 : ((br * 3 + i₁, bc * 3 + j₁) : Nat × Nat) = (x, y)
      · injection e1 with ex ey
        by_cases e2 : ((br * 3 + i₂, bc * 3 + j₂) : Nat × Nat) = (x, y)
        · injection e2 with ex2 ey2
          refine hne2 ?_
          have hp : i₁ = i₂ ∧ j₁ = j₂ := by omega
          rw [hp.1, hp.2]
        · rw [ex, ey, hself] at heq
          rw [hne _ _ e2] at heq
          have hB1 : br * 3 + i₂ = x - x % 3 + i₂ := by omega
          have hB2 : bc * 3 + j₂ = y - y % 3 + j₂ := by omega
          rw [hB1, hB2] at heq
          exact hbox i₂ j₂ h3 h4 heq.symm
      · by_cases e2 : ((br * 3 + i₂, bc * 3 + j₂) : Nat × Nat) = (x, y)
        · injection e2 with ex ey
          rw [ex, ey, hself] at heq
          rw [hne _ _ e1] at heq
          have hB1 : br * 3 + i₁ = x - x % 3 + i₁ := by omega
          have hB2 : bc * 3 + j₁ = y - y % 3 + j₁ := by omega
          rw [hB1, hB2] at heq
          exact hbox i₁ j₁ h1 h2 heq
        · rw [hne _ _ e1] at hpos heq
          rw [hne _ _ e2] at heq
          exact inv.noDup (Or.inr (Or.inr
            ⟨br, bc, i₁, j₁, i₂, j₂, hbr, hbc, h1, h2, h3, h4, hne2, hpos, heq⟩))

/-- A unit accessor taking digit values, injectively, is a permutation of
the digits. -/
theorem unit_perm_of {f : Nat → Int} (hb : ∀ k, k < 9 → 1 ≤ f k ∧ f k ≤ 9)
    (hinj : ∀ k k', k < 9 → k' < 9 → f k = f k' → k = k') :
    List.Perm (unitList f) nineList := by
  have hnd : (unitList f).Nodup :=
    (List.nodup_map_iff_inj_on (List.nodup_range 9)).2
      (fun a ha b hb' h => hinj a b (List.mem_range.1 ha) (List.mem_range.1 hb') h)
  have hsub : unitList f ⊆ nineList := by
    intro w hw
    obtain ⟨k, hk, rfl⟩ := List.mem_map.1 hw
    exact mem_nineList.2 (hb k (List.mem_range.1 hk))
  exact (List.subperm_of_subset hnd hsub).perm_of_length_le
    (by simp [unitList, nineList])

/-- A state satisfying the invariant with an empty queue is a completion
of the initial board. -/
theorem inv_done {b0 sol : Board} (inv : SearchInv b0 sol []) : Completion b0 sol := by
  have hcell : ∀ r, r < 9 → ∀ c, c < 9 → 1 ≤ get sol r c ∧ get sol r c ≤ 9 := by
    intro r hr c hc
    have h1 := inv.lower r hr c hc
    have h2 := inv.upper r hr c hc
    have h3 : get sol r c ≠ 0 := fun h0 =>
      List.not_mem_nil _ (inv.zeroCover r hr c hc h0)
    omega
  refine ⟨inv.wf, ⟨?_, ?_, ?_⟩, inv.agree⟩
  · intro r hr
    refine unit_perm_of (fun k hk => hcell r hr k hk) ?_
    intro k k' hk hk' heq
    by_contra hne
    have hpos : 0 < get sol r k := by have := hcell r hr k hk; omega
    exact inv.noDup (Or.inl ⟨r, k, k', hr, hk, hk', hne, hpos, heq⟩)
  · intro c hc
    refine unit_perm_of (fun k hk => hcell k hk c hc) ?_
    intro k k' hk hk' heq
    by_contra hne
    have hpos : 0 < get sol k c := by have := hcell k hk c hc; omega
    exact inv.noDup (Or.inr (Or.inl ⟨c, k, k', hc, hk, hk', hne, hpos, heq⟩))
  · intro br hbr bc hbc
    refine unit_perm_of (fun k hk => hcell _ (by omega) _ (by omega)) ?_
    intro k k' hk hk' heq
    by_contra hne
    have hpos : 0 < get sol (br * 3 + k / 3) (bc * 3 + k % 3) := by
      have := hcell (br * 3 + k / 3) (by omega) (bc * 3 + k % 3) (by omega)
      omega
    have hpair : ((k / 3, k % 3) : Nat × Nat) ≠ (k' / 3, k' % 3) := by
      intro hp
      injection hp with hp1 hp2
      exact hne (by omega)
    exact inv.noDup (Or.inr (Or.inr ⟨br, bc, k / 3, k % 3, k' / 3, k' % 3,
      hbr, hbc, by omega, by omega, by omega, by omega, hpair, hpos, heq⟩))

/-- A completion of `b` placing `v` at `(x, y)` is also a completion of
the board with `v` written into that cell. -/
theorem completion_extend {b S : Board} {x y : Nat} {v : Int}
    (hWf : Wf b) (hx : x < 9) (hy : y < 9)
    (hcomp : Completion b S) (hval : get S x y = v) :
    Completion (setCell b x y v) S := by
  obtain ⟨hWfS, hSol, hAg⟩ := hcomp
  have hbx : x < b.length := by rw [hWf.1]; exact hx
  have hby : y < (b.getD x []).length := by
    rw [getD_in hbx, hWf.2 _ (List.getElem_mem _)]
    exact hy
  refine ⟨hWfS, hSol, ?_⟩
  intro r hr c hc hnz
  by_cases hpq : ((r, c) : Nat × Nat) = (x, y)
  · obtain ⟨rfl, rfl⟩ := Prod.ext_iff.1 hpq
    rw [get_setCell_self hbx hby]
    exact hval
  · rw [get_setCell_ne b v hpq] at hnz ⊢
    exact hAg r hr c hc hnz

/-- Unfolding the expand step of the solver: the candidate match always
takes the `some` branch. -/
theorem solverF_cons (fuel : Nat) (b : Board) (x y : Nat) (rest : List (Nat × Nat)) :
    solverF (fuel + 1) b ((x, y) :: rest) = tryCands fuel b x y rest (candVals b x y) := by
  have h : generate_candidates b x y = some (candVals b x y) := rfl
  simp [solverF, h]

/-- Main lemma about the solver, by induction on the fuel.  For a
duplicate-free queue of blank cells that fits in the fuel, the solver
never exhausts its fuel, and on failure it restores the board and the
queue exactly.  Under the full search invariant, failure means no
completion of the current board exists, and success yields a board
satisfying the invariant with an empty queue (hence a completion). -/
theorem solver_main : ∀ fuel : Nat,
    ∀ b zs, zs.Nodup → (∀ p ∈ zs, get b p.1 p.2 = 0) → zs.length ≤ fuel →
      ∃ res bd q, solverF fuel b zs = some (res, bd, q) ∧
        (res = none → bd = b ∧ q = zs) ∧
        ∀ b0, SearchInv b0 b zs →
          (res = none → ∀ S, ¬ Completion b S) ∧
          (∀ sol, res = some sol → bd = sol ∧ SearchInv b0 sol []) := by
  intro fuel
  induction fuel with
  | zero =>
    intro b zs hnd hbl hlen
    have hz : zs = [] := List.eq_nil_of_length_eq_zero (Nat.le_zero.1 hlen)
    subst hz
    refine ⟨some b, b, [], by simp [solverF], fun h => Option.noConfusion h, ?_⟩
    intro b0 inv
    refine ⟨fun h => Option.noConfusion h, ?_⟩
    intro sol hsol
    cases hsol
    exact ⟨rfl, inv⟩
  | succ fuel ih =>
    have htry : ∀ cs : List Int, ∀ x y zs bin,
        zs.Nodup → (x, y) ∉ zs →
        (∀ p ∈ zs, get (setCell bin x y 0) p.1 p.2 = 0) →
        zs.length ≤ fuel →
        ∃ res bd q, tryCands fuel bin x y zs cs = some (res, bd, q) ∧
          (res = none → bd = setCell bin x y 0 ∧ q = (x, y) :: zs) ∧
          ∀ b0, SearchInv b0 (setCell bin x y 0) ((x, y) :: zs) →
            (∀ v ∈ cs, v ∈ candVals (setCell bin x y 0) x y) →
            (res = none → ∀ S, Completion (setCell bin x y 0) S →
              get S x y ∈ cs → False) ∧
            (∀ sol, res = some sol → bd = sol ∧ SearchInv b0 sol []) := by
      intro cs
      induction cs with
      | nil =>
        intro x y zs bin hnd hnotin hbl hlen
        refine ⟨none, setCell bin x y 0, (x, y) :: zs, by simp [tryCands],
          fun _ => ⟨rfl, rfl⟩, ?_⟩
        intro b0 inv hcs
        exact ⟨fun _ S _ hmem => List.not_mem_nil _ hmem, fun sol h => Option.noConfusion h⟩
      | cons v vs ihv =>
        intro x y zs bin hnd hnotin hbl hlen
        have hb1 : setCell bin x y v = setCell (setCell bin x y 0) x y v := by
          rw [setCell_setCell]
        have hbl1 : ∀ p ∈ zs, get (setCell bin x y v) p.1 p.2 = 0 := by
          intro p hp
          have hpne : ((p.1, p.2) : Nat × Nat) ≠ (x, y) := by
            rw [Prod.mk.eta]
            exact fun h => hnotin (h ▸ hp)
          rw [hb1, get_setCell_ne _ v hpne]
          exact hbl p hp
        obtain ⟨res1, bd1, q1, heq1, hrest1, hinv1⟩ :=
          ih (setCell bin x y v) zs hnd hbl1 hlen
        cases res1 with
        | some sol1 =>
          refine ⟨some bd1, bd1, q1, by simp [tryCands, heq1], fun h => Option.noConfusion h, ?_⟩
          intro b0 inv hcs
          refine ⟨fun h => Option.noConfusion h, ?_⟩
          intro sol hsol
          cases hsol
          have hv := hcs v (List.mem_cons_self _ _)
          have inv1 : SearchInv b0 (setCell bin x y v) zs := by
            rw [hb1]
            exact inv_step inv hv
          obtain ⟨hbd, hfin⟩ := (hinv1 b0 inv1).2 sol1 rfl
          exact ⟨rfl, hbd ▸ hfin⟩
        | none =>
          obtain ⟨hbd1, hq1⟩ := hrest1 rfl
          subst hbd1
          have hq1' := hq1.symm
          subst hq1'
          have hkey : setCell (setCell bin x y v) x y 0 = setCell bin x y 0 := by
            rw [setCell_setCell]
          have hbl2 : ∀ p ∈ zs, get (setCell (setCell bin x y v) x y 0) p.1 p.2 = 0 := by
            rw [hkey]
            exact hbl
          obtain ⟨res, bd, q, heq2, hrest2, hinv2⟩ :=
            ihv x y zs (setCell bin x y v) hnd hnotin hbl2 hlen
          rw [hkey] at hrest2 hinv2
          refine ⟨res, bd, q, by simp [tryCands, heq1, heq2], hrest2, ?_⟩
          intro b0 inv hcs
          obtain ⟨hfail2, hsucc2⟩ :=
            hinv2 b0 inv (fun w hw => hcs w (List.mem_cons_of_mem _ hw))
          refine ⟨?_, hsucc2⟩
          intro h S hS hmem
          have hx9 := (inv.coords (x, y) (List.mem_cons_self _ _)).1
          have hy9 := (inv.coords (x, y) (List.mem_cons_self _ _)).2
          rcases List.mem_cons.1 hmem with hv | hv
          · -- the digit of S at (x, y) is the candidate v already tried
            have hv' := hcs v (List.mem_cons_self _ _)
            have hSext : Completion (setCell (setCell bin x y 0) x y v) S :=
              completion_extend inv.wf hx9 hy9 hS hv
            rw [← hb1] at hSext
            have inv1 : SearchInv b0 (setCell bin x y v) zs := by
              rw [hb1]
              exact inv_step inv hv'
            exact (hinv1 b0 inv1).1 rfl S hSext
          · exact hfail2 h S hS hv
    intro b zs hnd hbl hlen
    cases zs with
    | nil =>
      refine ⟨some b, b, [], by simp [solverF], fun h => Option.noConfusion h, ?_⟩
      intro b0 inv
      refine ⟨fun h => Option.noConfusion h, ?_⟩
      intro sol hsol
      cases hsol
      exact ⟨rfl, inv⟩
    | cons p rest =>
      obtain ⟨x, y⟩ := p
      have hx_blank : get b x y = 0 := hbl (x, y) (List.mem_cons_self _ _)
      have hb_eq : setCell b x y 0 = b := setCell_zero_restore hx_blank
      have hnotin : (x, y) ∉ rest := (List.nodup_cons.1 hnd).1
      have hnd' : rest.Nodup := (List.nodup_cons.1 hnd).2
      have hbl' : ∀ p ∈ rest, get (setCell b x y 0) p.1 p.2 = 0 := by
        rw [hb_eq]
        exact fun p hp => hbl p (List.mem_cons_of_mem _ hp)
      have hlen' : rest.length ≤ fuel := by
        simp only [List.length_cons] at hlen
        omega
      obtain ⟨res, bd, q, heq, hrest, hinv⟩ :=
        htry (candVals b x y) x y rest b hnd' hnotin hbl' hlen'
      rw [hb_eq] at hrest hinv
      refine ⟨res, bd, q, ?_, hrest, ?_⟩
      · rw [solverF_cons]
        exact heq
      · intro b0 inv
        obtain ⟨hfail, hsucc⟩ := hinv b0 inv (fun w hw => hw)
        refine ⟨?_, hsucc⟩
        intro h S hS
        have hx9 := (inv.coords (x, y) (List.mem_cons_self _ _)).1
        have hy9 := (inv.coords (x, y) (List.mem_cons_self _ _)).2
        exact hfail h S hS (completion_digit_mem hS hx9 hy9 hx_blank)

/-! ### Claim C7: failure restores the state -/

/-- Claim C7: whenever an invocation of the solver signals failure
(returns `None`), the board and the empty-cell queue observed by the
caller are exactly those at entry: the popped cell has been reset to 0
and its coordinate reinserted at the front of the queue.  The hypotheses
say that the queue holds distinct coordinates of blank cells and that the
fuel covers the queue, which hold for every reachable invocation. -/
theorem solver_failure_restores (fuel : Nat) (b : Board) (zs : List (Nat × Nat))
    (hnd : zs.Nodup) (hbl : ∀ p ∈ zs, get b p.1 p.2 = 0) (hfuel : zs.length ≤ fuel)
    (bd : Board) (q : List (Nat × Nat))
    (h : solverF fuel b zs = some (none, bd, q)) : bd = b ∧ q = zs := by
  obtain ⟨res, bd', q', heq, hrest, -⟩ := solver_main fuel b zs hnd hbl hfuel
  rw [heq] at h
  have h1 := Option.some.inj h
  injection h1 with ha hb
  injection hb with hb1 hb2
  obtain ⟨hbd, hq⟩ := hrest ha
  exact ⟨hb1.symm.trans hbd, hb2.symm.trans hq⟩

/-! ### Claim C8: `generate_candidates` never returns `None` -/

/-- Claim C8: `generate_candidates` always returns a list (its single
return path), never `None`; consequently the `candidate_vals == None`
branch of `solver` is dead: every expand step reduces directly to the
candidate loop. -/
theorem generate_candidates_total :
    (∀ b row col, generate_candidates b row col = some (candVals b row col)) ∧
      (∀ fuel b x y rest, solverF (fuel + 1) b ((x, y) :: rest) =
        tryCands fuel b x y rest (candVals b x y)) :=
  ⟨fun _ _ _ => rfl, fun fuel b x y rest => solverF_cons fuel b x y rest⟩

/-! ### Claim C9: termination and depth bound -/

theorem mem_allCells {p : Nat × Nat} : p ∈ allCells ↔ p.1 < 9 ∧ p.2 < 9 := by
  cases p with
  | mk r c =>
    simp only [allCells, List.mem_flatMap, List.mem_map, List.mem_range]
    constructor
    · rintro ⟨a, ha, d, hd, h⟩
      cases h; exact ⟨ha, hd⟩
    · rintro ⟨hr, hc⟩; exact ⟨r, hr, c, hc, rfl⟩

/-- Claim C9: with fuel equal to the length of the queue produced by
`find_spaces` — i.e. allowing exactly one expand step per empty cell —
the solver never exhausts its fuel, and that queue has at most 81 cells.
This is the formal content of "the recursion depth never exceeds the
number of empty cells (at most 81)"; each nested call consumes one unit
of fuel and is made only after one more cell has been filled and removed
from the queue (see `tryCands`/`solverF`). -/
theorem solver_terminates (b : Board) (zs : List (Nat × Nat))
    (h : find_spaces b = some zs) :
    solverF zs.length b zs ≠ none ∧ zs.length ≤ 81 := by
  have hzs := find_spaces_eq_some h
  subst hzs
  constructor
  · obtain ⟨res, bd, q, heq, -, -⟩ := solver_main (zeroesOf b).length b (zeroesOf b)
      (zeroesOf_nodup b) (fun p hp => (mem_zeroesOf.1 hp).2.2) le_rfl
    rw [heq]
    exact fun hh => Option.noConfusion hh
  · have hsub : zeroesOf b ⊆ allCells := by
      intro p hp
      have := mem_zeroesOf.1 hp
      exact mem_allCells.2 ⟨this.1, this.2.1⟩
    have := (List.subperm_of_subset (zeroesOf_nodup b) hsub).length_le
    have hlen : allCells.length = 81 := by decide
    omega

/-! ### The top-level pipeline -/

theorem failureGrid_not_solved : ¬ IsSolvedGrid failureGrid := by decide

/-- Case analysis of `sudoku_solver` on a board that passes the
validator: either the sentinel is returned and no completion exists, or
the returned board is a completion of the input. -/
theorem sudoku_solver_cases (b : Board) (hWf : Wf b)
    (hlow : ∀ r, r < 9 → ∀ c, c < 9 → 0 ≤ get b r c)
    (hup : ∀ r, r < 9 → ∀ c, c < 9 → get b r c ≤ 9)
    (hci : check_invalid b = false) :
    (sudoku_solver b = failureGrid ∧ ∀ S, ¬ Completion b S) ∨
      Completion b (sudoku_solver b) := by
  have hinv0 : SearchInv b b (zeroesOf b) := by
    refine ⟨hWf, ?_, zeroesOf_nodup b, ?_, ?_, fun r hr c hc h => rfl, hlow, hup, ?_⟩
    · intro p hp
      have := mem_zeroesOf.1 hp
      exact ⟨this.1, this.2.1⟩
    · intro p hp
      exact (mem_zeroesOf.1 hp).2.2
    · intro r hr c hc h0
      exact mem_zeroesOf.2 ⟨hr, hc, h0⟩
    · intro hdup
      rw [check_invalid_iff.2 hdup] at hci
      cases hci
  cases hfs : find_spaces b with
  | none =>
    have hz : zeroesOf b = [] := by
      have h' : (if (zeroesOf b).isEmpty then none else some (zeroesOf b)) =
          (none : Option (List (Nat × Nat))) := hfs
      split at h'
      · exact List.isEmpty_iff.1 (by assumption)
      · cases h'
    have hss : sudoku_solver b = b := by
      unfold sudoku_solver
      rw [hci, hfs]
      simp [solverF]
    rw [hss]
    refine Or.inr (inv_done ?_)
    rw [← hz]
    exact hinv0
  | some zs =>
    have hzs := find_spaces_eq_some hfs
    subst hzs
    obtain ⟨res, bd, q, heq, hrest, hinv⟩ :=
      solver_main (zeroesOf b).length b (zeroesOf b) (zeroesOf_nodup b)
        (fun p hp => (mem_zeroesOf.1 hp).2.2) le_rfl
    obtain ⟨hfail, hsucc⟩ := hinv b hinv0
    cases res with
    | some sol =>
      obtain ⟨hbd, hfin⟩ := hsucc sol rfl
      have hss : sudoku_solver b = sol := by
        unfold sudoku_solver
        rw [hci, hfs]
        simp only [Option.getD_some]
        rw [heq]
        simp
      rw [hss]
      exact Or.inr (inv_done hfin)
    | none =>
      have hss : sudoku_solver b = failureGrid := by
        unfold sudoku_solver
        rw [hci, hfs]
        simp only [Option.getD_some]
        rw [heq]
        simp
      exact Or.inl ⟨hss, hfail rfl⟩

/-! ### Claim C1: overall contract of `sudoku_solver` -/

/-- Claim C1: on a 9x9 board with entries in `[0, 9]`, `sudoku_solver`
returns either a completion of the input (a fully solved well-formed
board agreeing with every non-zero input cell) or the all -1 sentinel;
and it returns the sentinel exactly when the input has a duplicated
non-zero value in some row, column or box (`HasDupPos`, where non-zero
equals positive in the hypothesised range), or no completion exists. -/
theorem sudoku_solver_spec (b : Board) (hWf : Wf b)
    (hrange : ∀ r, r < 9 → ∀ c, c < 9 → 0 ≤ get b r c ∧ get b r c ≤ 9) :
    (sudoku_solver b = failureGrid ∨ Completion b (sudoku_solver b)) ∧
      (sudoku_solver b = failureGrid ↔
        (HasDupPos b ∨ ∀ S, ¬ Completion b S)) := by
  have hlow : ∀ r, r < 9 → ∀ c, c < 9 → 0 ≤ get b r c :=
    fun r hr c hc => (hrange r hr c hc).1
  have hup : ∀ r, r < 9 → ∀ c, c < 9 → get b r c ≤ 9 :=
    fun r hr c hc => (hrange r hr c hc).2
  by_cases hci : check_invalid b = true
  · have hfail : sudoku_solver b = failureGrid := by
      unfold sudoku_solver
      rw [hci]
      simp
    exact ⟨Or.inl hfail,
      ⟨fun _ => Or.inl (check_invalid_iff.1 hci), fun _ => hfail⟩⟩
  · have hci' : check_invalid b = false := by
      cases hb : check_invalid b
      · rfl
      · exact absurd hb hci
    rcases sudoku_solver_cases b hWf hlow hup hci' with ⟨hf, hns⟩ | hcomp
    · exact ⟨Or.inl hf, ⟨fun _ => Or.inr hns, fun _ => hf⟩⟩
    · refine ⟨Or.inr hcomp, ⟨?_, ?_⟩⟩
      · intro h
        rw [h] at hcomp
        exact absurd hcomp.2.1 failureGrid_not_solved
      · rintro (hdup | hns)
        · exact absurd (check_invalid_iff.2 hdup) hci
        · exact absurd hcomp (hns _)

/-! ### Boards are determined by their in-range cells -/

theorem board_ext {S T : Board} (hS : Wf S) (hT : Wf T)
    (h : ∀ r, r < 9 → ∀ c, c < 9 → get S r c = get T r c) : S = T := by
  apply List.ext_getElem (by rw [hS.1, hT.1])
  intro r hr1 hr2
  apply List.ext_getElem
    (by rw [hS.2 _ (List.getElem_mem _), hT.2 _ (List.getElem_mem _)])
  intro c hc1 hc2
  have hr9 : r < 9 := by rw [← hS.1]; exact hr1
  have hc9 : c < 9 := by
    have := hS.2 _ (List.getElem_mem hr1)
    omega
  have hv := h r hr9 c hc9
  rw [get_eq_q, get_eq_q, List.getElem?_eq_getElem hr1, List.getElem?_eq_getElem hr2] at hv
  simp only [Option.getD_some] at hv
  rw [List.getElem?_eq_getElem hc1, List.getElem?_eq_getElem hc2] at hv
  simpa using hv

/-! ### Claim C2: unique solutions are returned exactly -/

/-- Claim C2: if the input board has exactly one completion, then
`sudoku_solver` returns exactly that completion. -/
theorem sudoku_solver_unique_solution (b : Board) (hWf : Wf b)
    (hrange : ∀ r, r < 9 → ∀ c, c < 9 → 0 ≤ get b r c ∧ get b r c ≤ 9)
    (S : Board) (hS : Completion b S) (huniq : ∀ T, Completion b T → T = S) :
    sudoku_solver b = S := by
  have hci' : check_invalid b = false := by
    cases hb : check_invalid b
    · rfl
    · exact absurd (check_invalid_iff.1 hb) (completion_no_dup hS)
  rcases sudoku_solver_cases b hWf
    (fun r hr c hc => (hrange r hr c hc).1)
    (fun r hr c hc => (hrange r hr c hc).2) hci' with ⟨hf, hns⟩ | hcomp
  · exact absurd hS (hns S)
  · exact huniq _ hcomp

/-! ### Claim C6: solved boards are fixed points -/

/-- Claim C6: a board with no zero cell that passes the validator is
returned unchanged; consequently `sudoku_solver` is idempotent on the
solved boards it returns: a non-sentinel output is a fixed point. -/
theorem sudoku_solver_idempotent :
    (∀ b, (∀ r, r < 9 → ∀ c, c < 9 → get b r c ≠ 0) → check_invalid b = false →
      sudoku_solver b = b) ∧
    (∀ b b', Wf b → (∀ r, r < 9 → ∀ c, c < 9 → 0 ≤ get b r c ∧ get b r c ≤ 9) →
      sudoku_solver b = b' → b' ≠ failureGrid → sudoku_solver b' = b') := by
  have part1 : ∀ b, (∀ r, r < 9 → ∀ c, c < 9 → get b r c ≠ 0) →
      check_invalid b = false → sudoku_solver b = b := by
    intro b hnz hci
    have hfs : find_spaces b = none := find_spaces_eq_none hnz
    unfold sudoku_solver
    rw [hci, hfs]
    simp [solverF]
  refine ⟨part1, ?_⟩
  intro b b' hWf hrange hss hne
  by_cases hci : check_invalid b = true
  · refine absurd ?_ hne
    rw [← hss]
    unfold sudoku_solver
    rw [hci]
    simp
  · have hci' : check_invalid b = false := by
      cases hb : check_invalid b
      · rfl
      · exact absurd hb hci
    rcases sudoku_solver_cases b hWf
      (fun r hr c hc => (hrange r hr c hc).1)
      (fun r hr c hc => (hrange r hr c hc).2) hci' with ⟨hf, -⟩ | hcomp
    · exact absurd (hss ▸ hf) hne
    · rw [hss] at hcomp
      obtain ⟨hWf', hSol', hAg'⟩ := hcomp
      refine part1 b' ?_ ?_
      · intro r hr c hc
        have := solved_cell_range hSol' hr hc
        omega
      · cases hb : check_invalid b'
        · rfl
        · exact absurd (check_invalid_iff.1 hb) (solved_no_dup hSol')

/-! ### Claim C10: the input array is never mutated -/

theorem wr_same (σ : Store) (a : Nat) (b : Board) : wr σ a b a = b := by
  simp [wr]

theorem wr_other (σ : Store) {a x : Nat} (b : Board) (h : x ≠ a) :
    wr σ a b x = σ x := by
  simp [wr, h]

/-- Claim C10: `sudoku_solver` never mutates its input array: after the
pipeline runs, the object at the input's address holds exactly its
original values (all writes went to the fresh `tolist` copy), and the
returned grid is the value computed by the pure `sudoku_solver`. -/
theorem sudoku_solver_frame (σ : Store) (arr cpy : Nat) (hne : arr ≠ cpy) :
    (sudoku_solver_st σ arr cpy).2 arr = σ arr ∧
      (sudoku_solver_st σ arr cpy).1 = sudoku_solver (σ arr) := by
  unfold sudoku_solver_st sudoku_solver
  by_cases hci : check_invalid (σ arr) = true
  · rw [hci]
    simp
  · have hci' : check_invalid (σ arr) = false := by
      cases hb : check_invalid (σ arr)
      · rfl
      · exact absurd hb hci
    rw [hci']
    simp only [Bool.false_eq_true, if_false]
    rw [wr_same]
    cases hslv : solverF ((find_spaces (σ arr)).getD []).length (σ arr)
        ((find_spaces (σ arr)).getD []) with
    | none => exact ⟨wr_other σ _ hne, rfl⟩
    | some r =>
      obtain ⟨res, bd, q⟩ := r
      cases res with
      | some sol =>
        refine ⟨?_, rfl⟩
        show wr (wr σ cpy (σ arr)) cpy bd arr = σ arr
        rw [wr_other _ _ hne, wr_other _ _ hne]
      | none =>
        refine ⟨?_, rfl⟩
        show wr (wr σ cpy (σ arr)) cpy bd arr = σ arr
        rw [wr_other _ _ hne, wr_other _ _ hne]

/-- On `unsolvBoard` the solver signals failure. -/
theorem unsolv_solver_fails : ∃ bd q,
    solverF (zeroesOf unsolvBoard).length unsolvBoard (zeroesOf unsolvBoard) =
      some (none, bd, q) := by
  obtain ⟨res, bd, q, heq, hrest, hinv⟩ :=
    solver_main (zeroesOf unsolvBoard).length unsolvBoard (zeroesOf unsolvBoard)
      (by decide) (by decide) le_rfl
  have hinv0 : SearchInv unsolvBoard unsolvBoard (zeroesOf unsolvBoard) := by
    refine ⟨by decide, by decide, by decide, by decide,
      fun r hr c hc h0 => mem_zeroesOf.2 ⟨hr, hc, h0⟩,
      fun r hr c hc h => rfl, by decide, by decide, ?_⟩
    intro hdup
    exact absurd (check_invalid_iff.2 hdup) (by decide)
  obtain ⟨-, hsucc⟩ := hinv unsolvBoard hinv0
  have hres : res = none := by
    cases res with
    | none => rfl
    | some sol =>
      obtain ⟨-, hfin⟩ := hsucc sol rfl
      have hmem := completion_digit_mem (inv_done hfin)
        (show (0 : Nat) < 9 by decide) (show (8 : Nat) < 9 by decide) (by decide)
      rw [(by decide : candVals unsolvBoard 0 8 = [])] at hmem
      exact absurd hmem (List.not_mem_nil _)
  subst hres
  exact ⟨bd, q, heq⟩

/-! ### Witnesses -/

/-- Witness for C1 at the all-zero board. -/
theorem sudoku_solver_spec_witness :
    (sudoku_solver emptyBoard = failureGrid ∨
      Completion emptyBoard (sudoku_solver emptyBoard)) ∧
    (sudoku_solver emptyBoard = failureGrid ↔
      (HasDupPos emptyBoard ∨ ∀ S, ¬ Completion emptyBoard S)) :=
  sudoku_solver_spec emptyBoard (by decide) (by decide)

/-- Witness for C2 at a solved board, whose unique completion is itself. -/
theorem sudoku_solver_unique_solution_witness :
    sudoku_solver solvedBoard = solvedBoard :=
  sudoku_solver_unique_solution solvedBoard (by decide) (by decide) solvedBoard
    (by decide)
    (fun T hT => board_ext hT.1 (by decide)
      (fun r hr c hc => hT.2.2 r hr c hc
        ((by decide : ∀ r, r < 9 → ∀ c, c < 9 → get solvedBoard r c ≠ 0) r hr c hc)))

/-- Witness for C4 at the all-zero board. -/
theorem check_invalid_spec_witness :
    (∀ r, r < 9 → ∀ c, c < 9 → (0 : Int) ≤ get emptyBoard r c) ∧
    (check_invalid emptyBoard = true ↔
      ((∃ r i j, r < 9 ∧ i < 9 ∧ j < 9 ∧ i ≠ j ∧
          get emptyBoard r i ≠ 0 ∧ get emptyBoard r i = get emptyBoard r j) ∨
       (∃ c i j, c < 9 ∧ i < 9 ∧ j < 9 ∧ i ≠ j ∧
          get emptyBoard i c ≠ 0 ∧ get emptyBoard i c = get emptyBoard j c) ∨
       (∃ br bc i₁ j₁ i₂ j₂, br < 3 ∧ bc < 3 ∧ i₁ < 3 ∧ j₁ < 3 ∧ i₂ < 3 ∧ j₂ < 3 ∧
          (i₁, j₁) ≠ (i₂, j₂) ∧ get emptyBoard (br * 3 + i₁) (bc * 3 + j₁) ≠ 0 ∧
          get emptyBoard (br * 3 + i₁) (bc * 3 + j₁) =
            get emptyBoard (br * 3 + i₂) (bc * 3 + j₂)))) :=
  ⟨by decide, check_invalid_spec emptyBoard (by decide)⟩

/-- Witness for C5 at the cell (0, 0) of `boardC3`. -/
theorem generate_candidates_complement_witness :
    get boardC3 0 0 = 0 ∧
    ∀ v : Int, v ∈ candVals boardC3 0 0 ↔
      (1 ≤ v ∧ v ≤ 9) ∧
        (∀ i, i < 9 → get boardC3 0 i ≠ v) ∧
        (∀ i, i < 9 → get boardC3 i 0 ≠ v) ∧
        (∀ i j, i < 3 → j < 3 →
          get boardC3 (0 - 0 % 3 + i) (0 - 0 % 3 + j) ≠ v) :=
  ⟨by decide, generate_candidates_complement boardC3 0 0 (by decide) (by decide) (by decide)⟩

/-- Witness for C6 at a solved board. -/
theorem sudoku_solver_idempotent_witness :
    (∀ r, r < 9 → ∀ c, c < 9 → get solvedBoard r c ≠ 0) ∧
    check_invalid solvedBoard = false ∧
    sudoku_solver solvedBoard = solvedBoard :=
  ⟨by decide, by decide,
    sudoku_solver_idempotent.1 solvedBoard (by decide) (by decide)⟩

/-- Witness for C7 at the unsolvable board: the failed top-level call
hands back the board and the queue unchanged. -/
theorem solver_failure_restores_witness :
    (zeroesOf unsolvBoard).Nodup ∧
    (∀ p ∈ zeroesOf unsolvBoard, get unsolvBoard p.1 p.2 = 0) ∧
    solverF (zeroesOf unsolvBoard).length unsolvBoard (zeroesOf unsolvBoard) =
      some (none, unsolvBoard, zeroesOf unsolvBoard) := by
  obtain ⟨bd, q, heq⟩ := unsolv_solver_fails
  obtain ⟨hbd, hq⟩ := solver_failure_restores _ _ _ (by decide) (by decide)
    le_rfl bd q heq
  exact ⟨by decide, by decide, by rw [heq, hbd, hq]⟩

/-- Witness for C9 at `boardC3`. -/
theorem solver_terminates_witness :
    solverF (zeroesOf boardC3).length boardC3 (zeroesOf boardC3) ≠ none ∧
      (zeroesOf boardC3).length ≤ 81 :=
  solver_terminates boardC3 (zeroesOf boardC3) (by decide)

/-- Witness for C10 with the input at address 0 and the copy at 1. -/
theorem sudoku_solver_frame_witness :
    (sudoku_solver_st (fun _ => emptyBoard) 0 1).2 0 = emptyBoard ∧
      (sudoku_solver_st (fun _ => emptyBoard) 0 1).1 = sudoku_solver emptyBoard :=
  sudoku_solver_frame (fun _ => emptyBoard) 0 1 (by decide)

end Sudoku
